import Mathlib

/-!
Verification development for the HAF_Search matching core.

Each definition below is a shallow embedding of a function of the Rust
source (src/vectorizer.rs, src/gpu.rs, src/match_engine.rs, src/matcher.rs,
src/database.rs).  Machine integers are modelled as `Nat` with explicit
`% 2^w` where wrapping matters; `f32`/`f64` values are modelled as real or
rational numbers (an idealisation of floating point, noted per claim);
fallible Rust functions return `Except String`; strings are modelled at the
byte level (`List Nat`, UTF-8 bytes) for the vectorizer and as `String` for
the CPU matcher, with ASCII semantics for trimming and lowercasing.
-/

namespace HAF

/-! ## Vectorizer (src/vectorizer.rs)

Text is a list of UTF-8 bytes.  Rust's `str::trim` / `str::to_lowercase`
are modelled at ASCII granularity: whitespace bytes 9-13 and 32, and
lowercasing of bytes 65-90. -/

/-- Whitespace test used by `str::trim`, restricted to single-byte (ASCII)
whitespace. -/
def wsByte (b : ℕ) : Bool :=
  decide (b = 9 ∨ b = 10 ∨ b = 11 ∨ b = 12 ∨ b = 13 ∨ b = 32)

/-- ASCII lowercasing of one byte, as done by `str::to_lowercase` on ASCII
input. -/
def lowerByte (b : ℕ) : ℕ :=
  if 65 ≤ b ∧ b ≤ 90 then b + 32 else b

/-- Rust `str::trim`: remove leading and trailing whitespace. -/
def trimBytes (l : List ℕ) : List ℕ :=
  ((l.dropWhile wsByte).reverse.dropWhile wsByte).reverse

/-- The `normalize` helper of src/vectorizer.rs line 38: trim, then
lowercase. -/
def normalizeText (l : List ℕ) : List ℕ :=
  (trimBytes l).map lowerByte

/-- The `hash_bytes` helper of src/vectorizer.rs lines 42-48: a `u32`
rolling hash `hash = hash.wrapping_mul(31).wrapping_add(b)`, modelled with
`% 2^32` (input bytes are below 256, so folding the two wraps into one is
exact). -/
def hash_bytes (l : List ℕ) : ℕ :=
  l.foldl (fun h b => (h * 31 + b) % 4294967296) 0

/-- VECTOR_SIZE of src/vectorizer.rs line 3. -/
def VECTOR_SIZE : ℕ := 512

/-- The all-zero histogram `vec![0.0f32; VECTOR_SIZE]` (counts are integral,
so the histogram is tracked in ℕ). -/
def zeroVec : List ℕ := List.replicate VECTOR_SIZE 0

/-- Increment one bucket of the histogram (`vector[idx] += 1.0`). -/
def bump (v : List ℕ) (i : ℕ) : List ℕ :=
  v.set i (v.getD i 0 + 1)

/-- Overlapping 3-byte windows of the byte sequence (`bytes.windows(3)`). -/
def windows3 : List ℕ → List (List ℕ)
  | a :: b :: c :: t => [a, b, c] :: windows3 (b :: c :: t)
  | _ => []

/-- Histogram built by `Vectorizer::encode` for a nonempty normalized byte
sequence (src/vectorizer.rs lines 20-31): whole-sequence bucket when
shorter than 3 bytes, else one bucket per 3-byte window. -/
def histCore (n : List ℕ) : List ℕ :=
  if n.length < 3 then bump zeroVec (hash_bytes n % VECTOR_SIZE)
  else (windows3 n).foldl (fun v w => bump v (hash_bytes w % VECTOR_SIZE)) zeroVec

/-- Sum of squares of a real vector; its square root is the L2 norm taken
by `normalize_vector` (src/vectorizer.rs line 51). -/
def sumSq (v : List ℝ) : ℝ := (v.map (fun x => x * x)).sum

/-- The `normalize_vector` helper of src/vectorizer.rs lines 50-57: divide
by the L2 norm when it is positive, otherwise leave the vector unchanged.
Floating point is idealised as real arithmetic. -/
noncomputable def normalize_vector (v : List ℝ) : List ℝ :=
  if 0 < Real.sqrt (sumSq v) then v.map (fun x => x / Real.sqrt (sumSq v)) else v

/-- `Vectorizer::encode` (src/vectorizer.rs lines 14-35): normalize the
text, return the zero vector when it normalizes to empty, else build the
n-gram histogram and L2-normalize it. -/
noncomputable def encode (t : List ℕ) : List ℝ :=
  if normalizeText t = [] then List.replicate VECTOR_SIZE (0 : ℝ)
  else normalize_vector ((histCore (normalizeText t)).map (Nat.cast : ℕ → ℝ))

/-! ### Vectorizer lemmas -/

theorem length_bump (v : List ℕ) (i : ℕ) : (bump v i).length = v.length := by
  simp [bump]

theorem sum_bump (v : List ℕ) (i : ℕ) (h : i < v.length) :
    (bump v i).sum = v.sum + 1 := by
  induction v generalizing i with
  | nil => simp at h
  | cons a t ih =>
    cases i with
    | zero =>
      simp [bump]
      omega
    | succ j =>
      have hj : j < t.length := by simpa using h
      have : bump (a :: t) (j + 1) = a :: bump t j := by simp [bump]
      rw [this, List.sum_cons, List.sum_cons, ih j hj]
      omega

theorem length_foldl_bump (ws : List (List ℕ)) (v : List ℕ) :
    (ws.foldl (fun v w => bump v (hash_bytes w % VECTOR_SIZE)) v).length = v.length := by
  induction ws generalizing v with
  | nil => rfl
  | cons w ws ih => rw [List.foldl_cons, ih, length_bump]

theorem sum_foldl_bump (ws : List (List ℕ)) (v : List ℕ) (hv : v.length = 512) :
    (ws.foldl (fun v w => bump v (hash_bytes w % VECTOR_SIZE)) v).sum
      = v.sum + ws.length := by
  induction ws generalizing v with
  | nil => simp
  | cons w ws ih =>
    rw [List.foldl_cons, ih _ (by rw [length_bump]; exact hv),
      sum_bump _ _ (by rw [hv]; exact Nat.mod_lt _ (by norm_num [VECTOR_SIZE]))]
    simp only [List.length_cons]
    omega

theorem length_zeroVec : zeroVec.length = 512 := by
  unfold zeroVec
  rw [List.length_replicate]
  rfl

theorem histCore_length (n : List ℕ) : (histCore n).length = 512 := by
  unfold histCore
  split
  · rw [length_bump, length_zeroVec]
  · rw [length_foldl_bump, length_zeroVec]

theorem sum_histCore (n : List ℕ) (h : n ≠ []) : 1 ≤ (histCore n).sum := by
  unfold histCore
  split
  · rw [sum_bump _ _ (by rw [length_zeroVec]; exact Nat.mod_lt _ (by norm_num [VECTOR_SIZE]))]
    simp [zeroVec]
  · rename_i hlen
    rw [sum_foldl_bump _ _ length_zeroVec]
    have hz : zeroVec.sum = 0 := by simp [zeroVec]
    match n, h with
    | a :: b :: c :: t, _ =>
      rw [hz]
      simp [windows3]
    | [a], _ => exact absurd (by norm_num) hlen
    | [a, b], _ => exact absurd (by norm_num) hlen

theorem sumSq_nonneg (v : List ℝ) : 0 ≤ sumSq v := by
  induction v with
  | nil => simp [sumSq]
  | cons a t ih =>
    have := mul_self_nonneg a
    simp only [sumSq, List.map_cons, List.sum_cons] at *
    exact add_nonneg this ih

theorem sumSq_cast_pos (h : List ℕ) (hs : 1 ≤ h.sum) :
    0 < sumSq (h.map (Nat.cast : ℕ → ℝ)) := by
  induction h with
  | nil => simp at hs
  | cons a t ih =>
    simp only [List.map_cons, sumSq, List.sum_cons] at *
    rcases Nat.eq_zero_or_pos a with ha | ha
    · subst ha
      have : (1 : ℕ) ≤ t.sum := by omega
      simpa using lt_of_lt_of_le (ih this) (by simp [sumSq])
    · have h1 : (1 : ℝ) ≤ (a : ℝ) * (a : ℝ) := by
        have : (1 : ℝ) ≤ (a : ℝ) := by exact_mod_cast ha
        nlinarith
      have h2 : 0 ≤ sumSq (t.map (Nat.cast : ℕ → ℝ)) := sumSq_nonneg _
      simp only [sumSq] at h2 ⊢
      linarith

theorem sum_map_mul_const (l : List ℝ) (c : ℝ) :
    (l.map (fun x => x * c)).sum = l.sum * c := by
  induction l with
  | nil => simp
  | cons a t ih => simp [ih, add_mul]

theorem sumSq_normalize_vector (v : List ℝ) (hv : 0 < sumSq v) :
    sumSq (normalize_vector v) = 1 := by
  have hs : 0 < Real.sqrt (sumSq v) := Real.sqrt_pos.mpr hv
  have hss : Real.sqrt (sumSq v) * Real.sqrt (sumSq v) = sumSq v :=
    Real.mul_self_sqrt (le_of_lt hv)
  have h1 : normalize_vector v = v.map (fun x => x / Real.sqrt (sumSq v)) := by
    unfold normalize_vector
    rw [if_pos hs]
  set S := sumSq v with hS
  rw [h1, sumSq, List.map_map]
  have hmap : v.map ((fun x => x * x) ∘ fun x => x / Real.sqrt S)
      = (v.map (fun x => x * x)).map (fun y => y * (Real.sqrt S * Real.sqrt S)⁻¹) := by
    rw [List.map_map]
    refine List.map_congr_left fun x _ => ?_
    simp only [Function.comp_apply]
    rw [div_mul_div_comm, div_eq_mul_inv]
  rw [hmap, hss, sum_map_mul_const]
  have hsum : (v.map fun x => x * x).sum = S := by rw [hS]; rfl
  rw [hsum]
  exact mul_inv_cancel₀ (ne_of_gt hv)

theorem length_normalize_vector (v : List ℝ) :
    (normalize_vector v).length = v.length := by
  unfold normalize_vector
  split <;> simp

/-- C7: for every input text, `encode` returns a vector of length 512; if
the text normalizes (trim + lowercase) to empty the result is the all-zero
vector (no division by zero is performed: the normalization step is skipped
entirely); otherwise the result has L2 norm 1, stated as sum of squares
equal to 1 (real-arithmetic idealisation of the f32 computation, which the
claim words as a floating-point tolerance). -/
theorem C7_encode_norm (t : List ℕ) :
    (encode t).length = 512 ∧
    (normalizeText t = [] → encode t = List.replicate 512 (0 : ℝ)) ∧
    (normalizeText t ≠ [] → sumSq (encode t) = 1) := by
  by_cases h : normalizeText t = []
  · refine ⟨?_, fun _ => ?_, fun hne => absurd h hne⟩
    · unfold encode
      rw [if_pos h, List.length_replicate]
      rfl
    · unfold encode
      rw [if_pos h]
      rfl
  · have hpos : 0 < sumSq ((histCore (normalizeText t)).map (Nat.cast : ℕ → ℝ)) :=
      sumSq_cast_pos _ (sum_histCore _ h)
    refine ⟨?_, fun he => absurd he h, fun _ => ?_⟩
    · unfold encode
      rw [if_neg h, length_normalize_vector, List.length_map, histCore_length]
    · unfold encode
      rw [if_neg h]
      exact sumSq_normalize_vector _ hpos

/-- Witness for C7 at the concrete text "ab" (bytes 97, 98). -/
theorem C7_encode_norm_witness :
    normalizeText [97, 98] ≠ [] ∧ sumSq (encode [97, 98]) = 1 :=
  ⟨by decide, (C7_encode_norm [97, 98]).2.2 (by decide)⟩

/-! ### Determinism and case-insensitivity of encode (C8) -/

theorem lowerByte_idem (b : ℕ) : lowerByte (lowerByte b) = lowerByte b := by
  simp only [lowerByte]
  split_ifs with h1 h2 <;> omega

theorem wsByte_lowerByte (b : ℕ) : wsByte (lowerByte b) = wsByte b := by
  simp only [wsByte, lowerByte]
  split_ifs with h
  · rw [decide_eq_decide]
    omega
  · rfl

theorem dropWhile_map_lower (l : List ℕ) :
    List.dropWhile wsByte (l.map lowerByte) = (List.dropWhile wsByte l).map lowerByte := by
  induction l with
  | nil => rfl
  | cons a t ih =>
    simp only [List.map_cons, List.dropWhile_cons, wsByte_lowerByte]
    cases hw : wsByte a with
    | true => simpa [hw] using ih
    | false => simp [hw]

theorem trimBytes_map_lower (l : List ℕ) :
    trimBytes (l.map lowerByte) = (trimBytes l).map lowerByte := by
  unfold trimBytes
  rw [dropWhile_map_lower, ← List.map_reverse, dropWhile_map_lower, ← List.map_reverse]

theorem dropWhile_cons_self (p : ℕ → Bool) (a : ℕ) (t : List ℕ)
    (h : List.dropWhile p (a :: t) = a :: t) : p a = false := by
  cases hp : p a
  · rfl
  · rw [List.dropWhile_cons, if_pos hp] at h
    have hle := (List.dropWhile_sublist (l := t) (p := p)).length_le
    rw [h] at hle
    simp at hle

theorem dropWhile_take (p : ℕ → Bool) (m : List ℕ) (j : ℕ)
    (h : List.dropWhile p m = m) : List.dropWhile p (m.take j) = m.take j := by
  cases m with
  | nil => simp
  | cons a t =>
    cases j with
    | zero => simp
    | succ k =>
      have hpa : p a = false := dropWhile_cons_self p a t h
      simp [List.dropWhile_cons, hpa]

theorem dropWhile_eq_drop (p : ℕ → Bool) (l : List ℕ) :
    ∃ k, List.dropWhile p l = l.drop k := by
  induction l with
  | nil => exact ⟨0, rfl⟩
  | cons a t ih =>
    cases hp : p a with
    | true =>
      obtain ⟨k, hk⟩ := ih
      exact ⟨k + 1, by simp [List.dropWhile_cons, hp, hk]⟩
    | false => exact ⟨0, by simp [List.dropWhile_cons, hp]⟩

theorem trimBytes_idem (l : List ℕ) : trimBytes (trimBytes l) = trimBytes l := by
  set m := List.dropWhile wsByte l with hm
  have hmm : List.dropWhile wsByte m = m := by
    rw [hm]; exact List.dropWhile_idempotent wsByte l
  set u := List.dropWhile wsByte m.reverse with hu
  have huu : List.dropWhile wsByte u = u := by
    rw [hu]; exact List.dropWhile_idempotent wsByte m.reverse
  have htrim : trimBytes l = u.reverse := by
    unfold trimBytes
    rw [← hm, ← hu]
  obtain ⟨k, hk⟩ := dropWhile_eq_drop wsByte m.reverse
  have hurev : u.reverse = m.take (m.length - k) := by
    rw [hu, hk, List.reverse_drop]
    simp
  have hfix : List.dropWhile wsByte u.reverse = u.reverse := by
    rw [hurev]
    exact dropWhile_take wsByte m _ hmm
  rw [htrim]
  unfold trimBytes
  rw [hfix, List.reverse_reverse, huu]

theorem normalizeText_idem (l : List ℕ) :
    normalizeText (normalizeText l) = normalizeText l := by
  unfold normalizeText
  rw [trimBytes_map_lower, trimBytes_idem, List.map_map]
  exact List.map_congr_left fun b _ => lowerByte_idem b

/-- C8: `encode` is deterministic and pure (equal byte sequences yield the
same vector — immediate in the functional embedding, mirroring that the
Rust function reads no state), and `encode` of the trimmed lowercased form
of a text equals `encode` of the text itself. -/
theorem C8_encode_pure (s t : List ℕ) :
    (s = t → encode s = encode t) ∧ encode (normalizeText s) = encode s := by
  refine ⟨fun h => by rw [h], ?_⟩
  unfold encode
  rw [normalizeText_idem]

/-- Witness for C8: encoding "ab" (bytes 97 98) and "AB" (bytes 65 66)
yields identical vectors, and repeated calls agree. -/
theorem C8_encode_pure_witness :
    encode [97, 98] = encode [65, 66] ∧ encode [65, 66] = encode [65, 66] := by
  constructor
  · have h := (C8_encode_pure [65, 66] [65, 66]).2
    have e : normalizeText [65, 66] = [97, 98] := by decide
    rw [e] at h
    exact h
  · exact (C8_encode_pure [65, 66] [65, 66]).1 rfl

/-! ## SimilarityComputer (src/gpu.rs)

`dispatch_tile` is modelled on its size arithmetic: the device buffers are
abstracted to their byte sizes, and the scores a pending tile will produce
are abstracted to the byte size of the staging buffer (their values are
produced by the device).  `usize`/`u64` arithmetic is modelled in ℕ with an
explicit 2^64 overflow guard; an arithmetic overflow that Rust reports by
panicking is converted to an error by the `catch_unwind` wrapper of
`dispatch_tile` (src/gpu.rs lines 200-211), so overflow is modelled as the
error outcome. -/

/-- One-shot result handle of a dispatched tile (src/gpu.rs lines 22-29):
either an immediately resolved score vector, or a pending device
computation described by the byte size of its staging buffer.  The code
only ever constructs `Immediate(Ok(..))`, so the immediate payload is the
score vector itself. -/
inductive GpuTileHandle where
  | immediate : List ℚ → GpuTileHandle
  | pending : ℕ → GpuTileHandle
deriving DecidableEq

/-- Upper bound of `u64`/64-bit `usize` arithmetic. -/
def U64_LIMIT : ℕ := 18446744073709551616

/-- `SimilarityComputer::dispatch_tile_inner` (src/gpu.rs lines 234-368),
reduced to its size checks: zero-sized file chunks and empty query buffers
short-circuit to an immediate empty result; a file slice past the end of
the file buffer, an output size overflowing 64-bit arithmetic, and an
output size above `max_storage_bytes` are errors; otherwise the dispatch
succeeds with a staging buffer of `query_len * file_len * 4` bytes. -/
def dispatch_tile_inner (maxStorageBytes bufferSize queryVecLen query_len
    file_offset file_len dim : ℕ) : Except String GpuTileHandle :=
  if file_len * (dim * 4) = 0 then Except.ok (GpuTileHandle.immediate [])
  else if bufferSize < file_offset * (dim * 4) + file_len * (dim * 4) then
    Except.error "Requested file chunk exceeds GPU buffer size"
  else if queryVecLen * 4 = 0 then Except.ok (GpuTileHandle.immediate [])
  else if U64_LIMIT ≤ query_len * file_len * 4 then
    Except.error "Output buffer size overflow"
  else if maxStorageBytes < query_len * file_len * 4 then
    Except.error "Output buffer exceeds GPU limit"
  else Except.ok (GpuTileHandle.pending (query_len * file_len * 4))

/-- `SimilarityComputer::dispatch_tile` (src/gpu.rs lines 187-211):
zero-length query or file short-circuits to an immediately resolved empty
result before any device work; otherwise the inner dispatch runs (panics
caught and converted to errors are folded into the inner error cases). -/
def dispatch_tile (maxStorageBytes bufferSize queryVecLen query_len
    file_offset file_len dim : ℕ) : Except String GpuTileHandle :=
  if query_len = 0 ∨ file_len = 0 then Except.ok (GpuTileHandle.immediate [])
  else dispatch_tile_inner maxStorageBytes bufferSize queryVecLen query_len
    file_offset file_len dim

/-- Number of floats `GpuTileHandle::wait` returns on success (src/gpu.rs
lines 32-62): an immediate handle yields its stored vector; a pending
handle maps exactly `output_bytes` staging bytes and reinterprets them as
4-byte floats. -/
def waitLen : GpuTileHandle → ℕ
  | GpuTileHandle.immediate v => v.length
  | GpuTileHandle.pending outputBytes => outputBytes / 4

/-- C2: under the calling convention of the engine (positive vector
dimension, `query_vectors` holding `query_len` vectors of `dim` floats),
`dispatch_tile` with zero-length queries or files returns an
immediately-resolved empty result; it returns an error whenever the
requested file slice `(file_offset + file_len) * dim * 4` bytes exceeds
the file buffer size, whenever the output size `query_len * file_len * 4`
bytes overflows 64-bit arithmetic, and whenever that output size exceeds
`max_storage_bytes`. -/
theorem C2_dispatch_tile_checks (maxStorage bufferSize queryVecLen q foff f dim : ℕ)
    (hdim : 0 < dim) (hql : queryVecLen = q * dim) :
    (q = 0 ∨ f = 0 →
      dispatch_tile maxStorage bufferSize queryVecLen q foff f dim
        = Except.ok (GpuTileHandle.immediate [])) ∧
    (0 < q → 0 < f → bufferSize < (foff + f) * (dim * 4) →
      (dispatch_tile maxStorage bufferSize queryVecLen q foff f dim).isOk = false) ∧
    (0 < q → 0 < f → U64_LIMIT ≤ q * f * 4 →
      (dispatch_tile maxStorage bufferSize queryVecLen q foff f dim).isOk = false) ∧
    (0 < q → 0 < f → maxStorage < q * f * 4 →
      (dispatch_tile maxStorage bufferSize queryVecLen q foff f dim).isOk = false) := by
  refine ⟨fun h0 => by unfold dispatch_tile; rw [if_pos h0], ?_, ?_, ?_⟩ <;>
    intro hq hf
  · intro hbuf
    unfold dispatch_tile dispatch_tile_inner
    rw [if_neg (by omega)]
    rw [if_neg (by positivity)]
    rw [if_pos (by rw [Nat.add_mul] at hbuf; omega)]
    rfl
  · intro hover
    have hchunk : f * (dim * 4) ≠ 0 := by positivity
    have hquery : queryVecLen * 4 ≠ 0 := by rw [hql]; positivity
    unfold dispatch_tile dispatch_tile_inner
    rw [if_neg (by omega), if_neg hchunk]
    by_cases hb : bufferSize < foff * (dim * 4) + f * (dim * 4)
    · rw [if_pos hb]
      rfl
    · rw [if_neg hb, if_neg hquery, if_pos hover]
      rfl
  · intro hstore
    have hchunk : f * (dim * 4) ≠ 0 := by positivity
    have hquery : queryVecLen * 4 ≠ 0 := by rw [hql]; positivity
    unfold dispatch_tile dispatch_tile_inner
    rw [if_neg (by omega), if_neg hchunk]
    by_cases hb : bufferSize < foff * (dim * 4) + f * (dim * 4)
    · rw [if_pos hb]
      rfl
    · rw [if_neg hb, if_neg hquery]
      by_cases hov : U64_LIMIT ≤ q * f * 4
      · rw [if_pos hov]
        rfl
      · rw [if_neg hov, if_pos hstore]
        rfl

/-- Witness for C2 at concrete sizes: a zero-length query resolves to an
empty immediate result, and a file slice of 2 vectors of dimension 1 (8
bytes) against a 4-byte buffer is rejected. -/
theorem C2_dispatch_tile_checks_witness :
    dispatch_tile 100 4 0 0 0 2 1 = Except.ok (GpuTileHandle.immediate []) ∧
    (dispatch_tile 100 4 2 2 0 2 1).isOk = false :=
  ⟨(C2_dispatch_tile_checks 100 4 0 0 0 2 1 (by decide) (by decide)).1 (Or.inl rfl),
   (C2_dispatch_tile_checks 100 4 2 2 0 2 1 (by decide) (by decide)).2.1
     (by decide) (by decide) (by decide)⟩

/-- C10: a tile dispatched with positive `query_len` and `file_len` (under
the engine's calling convention) that succeeds resolves to exactly
`query_len * file_len` floats, so the row-major index
`qi * file_len + fi` used by `collect_matches` is in bounds for every
`qi < query_len`, `fi < file_len`. -/
theorem C10_resolved_tile_size (maxStorage bufferSize queryVecLen q foff f dim : ℕ)
    (h : GpuTileHandle) (hdim : 0 < dim) (hql : queryVecLen = q * dim)
    (hq : 0 < q) (hf : 0 < f)
    (hok : dispatch_tile maxStorage bufferSize queryVecLen q foff f dim = Except.ok h) :
    waitLen h = q * f ∧ ∀ qi fi, qi < q → fi < f → qi * f + fi < waitLen h := by
  unfold dispatch_tile dispatch_tile_inner at hok
  rw [if_neg (by omega)] at hok
  rw [if_neg (show ¬ f * (dim * 4) = 0 by positivity)] at hok
  rw [if_neg (show ¬ queryVecLen * 4 = 0 by rw [hql]; positivity)] at hok
  by_cases hb : bufferSize < foff * (dim * 4) + f * (dim * 4)
  · rw [if_pos hb] at hok
    exact absurd hok (by simp)
  · rw [if_neg hb] at hok
    by_cases hov : U64_LIMIT ≤ q * f * 4
    · rw [if_pos hov] at hok
      exact absurd hok (by simp)
    · rw [if_neg hov] at hok
      by_cases hst : maxStorage < q * f * 4
      · rw [if_pos hst] at hok
        exact absurd hok (by simp)
      · rw [if_neg hst] at hok
        injection hok with hxy
        subst hxy
        have hw : waitLen (GpuTileHandle.pending (q * f * 4)) = q * f := by
          simp only [waitLen]
          omega
        refine ⟨hw, fun qi fi hqi hfi => ?_⟩
        rw [hw]
        calc qi * f + fi < qi * f + f := by omega
        _ = (qi + 1) * f := by ring
        _ ≤ q * f := Nat.mul_le_mul_right f hqi

/-- Witness for C10: a 1 x 2 tile of dimension 512 dispatched against an
8-byte storage limit and a 4096-byte file buffer resolves to 1 * 2
floats. -/
theorem C10_resolved_tile_size_witness :
    waitLen (GpuTileHandle.pending 8) = 1 * 2 :=
  (C10_resolved_tile_size 8 4096 512 1 0 2 512 (GpuTileHandle.pending 8)
    (by decide) (by decide) (by decide) (by decide) (by rfl)).1

/-! ## GpuMatchEngine tiling (src/match_engine.rs lines 461-499)

The submission loop splits `hh_ids` into chunks of `chunk_size.max(1)`,
computes a per-chunk file tile size with `file_chunk_size_for`, and for
each enumerated file chunk dispatches one tile at
`file_offset = tile_index * chunk_file_size`. -/

/-- Rust `slice::chunks(n+1)`: consecutive chunks of `n+1` elements, the
last one possibly shorter.  Structural recursion on a fuel bound (one unit
per emitted chunk; `fuel = l.length` always suffices since every chunk is
nonempty); on fuel exhaustion the remainder is emitted as one chunk, a
case never reached from `chunks`. -/
def chunksGo (n : ℕ) : ℕ → List α → List (List α)
  | _, [] => []
  | 0, a :: l => [a :: l]
  | fuel + 1, a :: l => (a :: l).take (n + 1) :: chunksGo n fuel ((a :: l).drop (n + 1))

/-- Rust `slice::chunks(n)` as used by the engine, with the `.max(1)`
guard of src/match_engine.rs line 461 folded in: chunk size is
`max n 1 = (n - 1) + 1`. -/
def chunks (n : ℕ) (l : List α) : List (List α) := chunksGo (n - 1) l.length l

theorem chunksGo_flatten (n : ℕ) (fuel : ℕ) (l : List α) :
    (chunksGo n fuel l).flatten = l := by
  induction fuel generalizing l with
  | zero => cases l <;> simp [chunksGo]
  | succ fuel ih =>
    cases l with
    | nil => simp [chunksGo]
    | cons a t =>
      rw [chunksGo, List.flatten_cons, ih, List.take_append_drop]

theorem chunks_flatten (n : ℕ) (l : List α) : (chunks n l).flatten = l :=
  chunksGo_flatten (n - 1) l.length l

theorem chunksGo_enum_mem (n : ℕ) (fuel : ℕ) (l : List α) (hfuel : l.length ≤ fuel) :
    ∀ p ∈ (chunksGo n fuel l).enum, p.2 = (l.drop (p.1 * (n + 1))).take (n + 1) := by
  induction fuel generalizing l with
  | zero =>
    intro p hp
    have : l = [] := List.length_eq_zero.mp (Nat.le_zero.mp hfuel)
    subst this
    simp [chunksGo] at hp
  | succ fuel ih =>
    intro p hp
    cases l with
    | nil => simp [chunksGo] at hp
    | cons a t =>
      rw [chunksGo, List.enum_cons'] at hp
      rcases List.mem_cons.mp hp with h0 | hs
      · subst h0
        simp
      · obtain ⟨q, hq, hpq⟩ := List.mem_map.mp hs
        have hlen : ((a :: t).drop (n + 1)).length ≤ fuel := by
          simp only [List.length_drop, List.length_cons] at *
          omega
        have h2 := ih _ hlen q hq
        subst hpq
        simp only [Prod.map_fst, Prod.map_snd, id_eq]
        rw [h2, List.drop_drop]
        congr 1
        ring_nf

/-- `GpuMatchEngine::file_chunk_size_for` (src/match_engine.rs lines
282-301): the configured file chunk size bounded by the adaptive device
limits (file-count limit and output-size limit), floored at 1. -/
def file_chunk_size_for (fileChunkSize maxStorageBytes queryCount : ℕ) : ℕ :=
  if queryCount = 0 then max fileChunkSize 1
  else
    let bytesPerVector := VECTOR_SIZE * 4
    let maxStorage := max maxStorageBytes bytesPerVector
    let fileLimit := maxStorage / bytesPerVector
    let outputLimit := if queryCount = 0 then maxStorage else maxStorage / (queryCount * 4)
    max (min (max fileChunkSize 1) (max (min fileLimit outputLimit) 1)) 1

theorem file_chunk_size_for_pos (fileChunkSize maxStorageBytes queryCount : ℕ) :
    1 ≤ file_chunk_size_for fileChunkSize maxStorageBytes queryCount := by
  unfold file_chunk_size_for
  split
  · exact le_max_right _ 1
  · exact le_max_right _ 1

/-- One unit of dispatched work: an identifier slice, the enumerated tile
index within its identifier chunk, the file offset
`tile_index * chunk_file_size` passed to `dispatch_tile`, and the file
slice (src/match_engine.rs lines 468-480). -/
structure Tile (A B : Type) where
  hh_slice : List A
  tile_index : ℕ
  file_offset : ℕ
  file_slice : List B

/-- The sequence of tiles one run of `GpuMatchEngine::match_and_store`
dispatches, in submission order (src/match_engine.rs lines 461-487):
identifier chunks of `chunkSize.max(1)` in order, and per identifier chunk
the enumerated file chunks of the adaptive per-chunk file tile size. -/
def tileList (chunkSize : ℕ) (cfsOf : ℕ → ℕ) (ids : List A) (files : List B) :
    List (Tile A B) :=
  (chunks chunkSize ids).flatMap fun c =>
    ((chunks (cfsOf c.length) files).enum).map fun p =>
      { hh_slice := c, tile_index := p.1, file_offset := p.1 * cfsOf c.length,
        file_slice := p.2 }

theorem flatMap_map_comp (l : List γ) (h : γ → δ) (f : δ → List ε) :
    (l.map h).flatMap f = l.flatMap (fun x => f (h x)) := by
  induction l with
  | nil => rfl
  | cons a t ih => simp [ih]

theorem flatMap_perm_congr (ll : List γ) (g gg : γ → List δ)
    (h : ∀ c ∈ ll, (g c).Perm (gg c)) : (ll.flatMap g).Perm (ll.flatMap gg) := by
  induction ll with
  | nil => exact List.Perm.refl _
  | cons c t ih =>
    simp only [List.flatMap_cons]
    exact (h c (List.mem_cons_self c t)).append
      (ih fun x hx => h x (List.mem_cons_of_mem c hx))

theorem append_shuffle_perm (w x y z : List γ) :
    ((w ++ x) ++ (y ++ z)).Perm ((w ++ y) ++ (x ++ z)) := by
  have hp : ((x ++ y) ++ z).Perm ((y ++ x) ++ z) :=
    List.Perm.append_right z List.perm_append_comm
  have h2 := List.Perm.append_left w hp
  have e1 : (w ++ x) ++ (y ++ z) = w ++ ((x ++ y) ++ z) := by
    simp [List.append_assoc]
  have e2 : (w ++ y) ++ (x ++ z) = w ++ ((y ++ x) ++ z) := by
    simp [List.append_assoc]
  rw [e1, e2]
  exact h2

theorem product_nil (c : List A) : c ×ˢ ([] : List B) = [] := by
  induction c with
  | nil => rfl
  | cons a t ih =>
    show List.map (Prod.mk a) [] ++ t ×ˢ ([] : List B) = []
    simp [ih]

theorem product_append_perm (c : List A) (r s : List B) :
    (c ×ˢ (r ++ s)).Perm (c ×ˢ r ++ c ×ˢ s) := by
  induction c with
  | nil => exact List.Perm.refl _
  | cons a t ih =>
    show ((List.map (Prod.mk a) (r ++ s)) ++ t ×ˢ (r ++ s)).Perm
      ((List.map (Prod.mk a) r ++ t ×ˢ r) ++ (List.map (Prod.mk a) s ++ t ×ˢ s))
    rw [List.map_append]
    exact List.Perm.trans (List.Perm.append_left _ ih) (append_shuffle_perm _ _ _ _)

theorem flatMap_product_flatten (c : List A) (ll : List (List B)) :
    (ll.flatMap fun fc => c ×ˢ fc).Perm (c ×ˢ ll.flatten) := by
  induction ll with
  | nil =>
    rw [List.flatten_nil, product_nil]
    exact List.Perm.refl _
  | cons fc t ih =>
    simp only [List.flatMap_cons, List.flatten_cons]
    exact List.Perm.trans (List.Perm.append_left _ ih)
      (product_append_perm c fc t.flatten).symm

theorem flatMap_product_left (files : List B) (ll : List (List A)) :
    (ll.flatMap fun c => c ×ˢ files) = ll.flatten ×ˢ files := by
  induction ll with
  | nil => rfl
  | cons c t ih =>
    simp only [List.flatMap_cons, List.flatten_cons]
    have hsplit : (c ++ t.flatten) ×ˢ files = c ×ˢ files ++ t.flatten ×ˢ files := by
      show (c ++ t.flatten).flatMap _ = _
      rw [List.flatMap_append]
      rfl
    rw [hsplit, ih]

/-- C1: over one run, the tiles dispatched by the GPU engine cover the
cross product of identifiers and files exactly once (as a multiset of
pairs), and each tile's file slice is the segment of the file list located
at `file_offset = tile_index * chunk_file_size` (so the byte binding at
`file_offset * dim * 4` in the file buffer addresses exactly that
slice). -/
theorem C1_tiling_coverage (chunkSize : ℕ) (cfsOf : ℕ → ℕ) (ids : List A)
    (files : List B) (hcfs : ∀ k, 1 ≤ cfsOf k) :
    ((tileList chunkSize cfsOf ids files).flatMap fun t =>
        t.hh_slice ×ˢ t.file_slice).Perm (ids ×ˢ files) ∧
    ∀ t ∈ tileList chunkSize cfsOf ids files,
      t.file_offset = t.tile_index * cfsOf t.hh_slice.length ∧
      t.file_slice = (files.drop t.file_offset).take (cfsOf t.hh_slice.length) := by
  constructor
  · unfold tileList
    rw [List.flatMap_assoc]
    have hinner : ∀ c : List A,
        ((((chunks (cfsOf c.length) files).enum).map fun p =>
            ({ hh_slice := c, tile_index := p.1, file_offset := p.1 * cfsOf c.length,
               file_slice := p.2 } : Tile A B)).flatMap fun t =>
          t.hh_slice ×ˢ t.file_slice)
        = (chunks (cfsOf c.length) files).flatMap fun fc => c ×ˢ fc := by
      intro c
      rw [flatMap_map_comp]
      have h2 := flatMap_map_comp ((chunks (cfsOf c.length) files).enum) Prod.snd
        (fun fc => c ×ˢ fc)
      rw [List.enum_map_snd] at h2
      rw [← h2]
    have e1 : ((chunks chunkSize ids).flatMap fun c =>
            ((((chunks (cfsOf c.length) files).enum).map fun p =>
              ({ hh_slice := c, tile_index := p.1,
                 file_offset := p.1 * cfsOf c.length,
                 file_slice := p.2 } : Tile A B)).flatMap fun t =>
                t.hh_slice ×ˢ t.file_slice))
        = (chunks chunkSize ids).flatMap fun c =>
            (chunks (cfsOf c.length) files).flatMap fun fc => c ×ˢ fc := by
      congr 1
      funext c
      exact hinner c
    rw [e1]
    have hcperm : ∀ c ∈ chunks chunkSize ids,
        ((chunks (cfsOf c.length) files).flatMap fun fc => c ×ˢ fc).Perm (c ×ˢ files) := by
      intro c _
      have h3 := flatMap_product_flatten c (chunks (cfsOf c.length) files)
      rwa [chunks_flatten] at h3
    have hmid := flatMap_perm_congr (chunks chunkSize ids)
      (fun c => (chunks (cfsOf c.length) files).flatMap fun fc => c ×ˢ fc)
      (fun c => c ×ˢ files) hcperm
    refine hmid.trans ?_
    rw [flatMap_product_left, chunks_flatten]
  · intro t ht
    unfold tileList at ht
    obtain ⟨c, _, hin⟩ := List.mem_flatMap.mp ht
    obtain ⟨p, hp, hpt⟩ := List.mem_map.mp hin
    subst hpt
    refine ⟨rfl, ?_⟩
    have hmem := chunksGo_enum_mem (cfsOf c.length - 1) files.length files
      (le_refl _) p hp
    have hsz : cfsOf c.length - 1 + 1 = cfsOf c.length := by
      have := hcfs c.length
      omega
    rw [hsz] at hmem
    exact hmem

/-- Witness for C1: a run over two identifiers and one file, with the
engine's adaptive file chunk size at a 2048-byte storage ceiling, covers
the full cross product. -/
theorem C1_tiling_coverage_witness :
    ((tileList 1 (fun k => file_chunk_size_for 256 2048 k) [1, 2]
        [10]).flatMap fun t => t.hh_slice ×ˢ t.file_slice).Perm
      ([1, 2] ×ˢ [10]) :=
  (C1_tiling_coverage 1 (fun k => file_chunk_size_for 256 2048 k) [1, 2] [10]
    (fun k => file_chunk_size_for_pos 256 2048 k)).1

/-! ## Backpressure of the submission loop (src/match_engine.rs lines 483-509)

After each dispatched tile is pushed onto the pending queue, the loop
drains the oldest pending tile whenever `pending.len() >= inflight_limit`;
after submission all remaining tiles are drained front to back.  The queue
discipline depends only on the sequence of submitted tiles, modelled here
as one step per tile. -/

/-- One iteration of the submission loop body for one tile: push the tile
onto the back of the pending queue, then, if the queue length has reached
the inflight limit, pop and resolve the oldest (front) tile.  Returns the
new queue and the tiles drained by this step. -/
def pumpStep (limit : ℕ) (q : List T) (t : T) : List T × List T :=
  if limit ≤ (q ++ [t]).length then ((q ++ [t]).drop 1, (q ++ [t]).take 1)
  else (q ++ [t], [])

/-- The whole submission loop over a tile sequence: final queue and the
tiles drained during submission, in drain order. -/
def pumpLoop (limit : ℕ) : List T → List T → List T × List T
  | q, [] => (q, [])
  | q, t :: ts =>
    (((pumpLoop limit (pumpStep limit q t).1 ts)).1,
      (pumpStep limit q t).2 ++ (pumpLoop limit (pumpStep limit q t).1 ts).2)

/-- Momentary maxima of the pending-queue length: the length right after
each push, before the conditional drain. -/
def pumpPeaks (limit : ℕ) : List T → List T → List ℕ
  | _, [] => []
  | q, t :: ts => (q ++ [t]).length :: pumpPeaks limit (pumpStep limit q t).1 ts

theorem pump_invariant (limit : ℕ) (hl : 1 ≤ limit) :
    ∀ (ts q : List T), q.length < limit →
      (∀ x ∈ pumpPeaks limit q ts, x ≤ limit) ∧
      (pumpLoop limit q ts).2 ++ (pumpLoop limit q ts).1 = q ++ ts ∧
      (pumpLoop limit q ts).1.length < limit := by
  intro ts
  induction ts with
  | nil =>
    intro q hq
    refine ⟨fun x hx => absurd hx (by simp [pumpPeaks]), ?_, ?_⟩
    · simp [pumpLoop]
    · simpa [pumpLoop] using hq
  | cons t ts ih =>
    intro q hq
    by_cases hc : limit ≤ (q ++ [t]).length
    · have hstep : pumpStep limit q t = ((q ++ [t]).drop 1, (q ++ [t]).take 1) := by
        rw [pumpStep, if_pos hc]
      have hlen : ((q ++ [t]).drop 1).length < limit := by
        simp only [List.length_drop, List.length_append, List.length_cons,
          List.length_nil] at *
        omega
      obtain ⟨ihp, ihd, ihq⟩ := ih ((q ++ [t]).drop 1) hlen
      refine ⟨?_, ?_, ?_⟩
      · intro x hx
        rw [pumpPeaks, hstep] at hx
        rcases List.mem_cons.mp hx with h0 | hs
        · subst h0
          simp only [List.length_append, List.length_cons, List.length_nil]
          omega
        · exact ihp x hs
      · rw [pumpLoop, hstep]
        simp only at *
        rw [List.append_assoc, ihd, ← List.append_assoc, List.take_append_drop,
          List.append_assoc]
        rfl
      · rw [pumpLoop, hstep]
        simpa using ihq
    · have hstep : pumpStep limit q t = (q ++ [t], []) := by
        rw [pumpStep, if_neg hc]
      have hlen : (q ++ [t]).length < limit := by omega
      obtain ⟨ihp, ihd, ihq⟩ := ih (q ++ [t]) hlen
      refine ⟨?_, ?_, ?_⟩
      · intro x hx
        rw [pumpPeaks, hstep] at hx
        rcases List.mem_cons.mp hx with h0 | hs
        · subst h0
          omega
        · exact ihp x hs
      · rw [pumpLoop, hstep]
        simp only [List.nil_append] at *
        rw [ihd, List.append_assoc]
        rfl
      · rw [pumpLoop, hstep]
        simpa using ihq

/-- C3: throughout a run with `inflight_limit = limit >= 1`, the pending
queue never holds more than `limit` tiles, even at its momentary maxima
right after a submission; every submitted tile is drained exactly once, in
submission (FIFO) order — the drains during submission followed by the
final drain of the remaining queue reproduce the submitted sequence; and
with `limit = 1` at most one tile is ever pending. -/
theorem C3_inflight_bound (limit : ℕ) (tiles : List T) (hl : 1 ≤ limit) :
    (∀ x ∈ pumpPeaks limit [] tiles, x ≤ limit) ∧
    (pumpLoop limit [] tiles).2 ++ (pumpLoop limit [] tiles).1 = tiles ∧
    (limit = 1 → ∀ x ∈ pumpPeaks limit [] tiles, x ≤ 1) := by
  have h := pump_invariant limit hl tiles [] (by simpa using hl)
  exact ⟨h.1, by simpa using h.2.1, fun h1 => h1 ▸ h.1⟩

/-- Witness for C3: three tiles through an inflight limit of 1 are drained
in submission order. -/
theorem C3_inflight_bound_witness :
    (pumpLoop 1 [] [1, 2, 3]).2 ++ (pumpLoop 1 [] [1, 2, 3]).1 = [1, 2, 3] :=
  (C3_inflight_bound 1 [1, 2, 3] (by decide)).2.1

/-! ## Progress reporting (src/match_engine.rs lines 328-382, 402-437, 501-511)

One run emits: an initial `(0, total_queries)` callback, one callback per
drained tile weighted by cumulative completed (query x file) cells over
total cells and re-projected (via ceiling) onto identifier count, and one
final `finish` callback with `completed_work = total_work`.  A run with no
files returns an error before any of this; a run with no identifiers (but
a nonempty file set) emits the single callback `(0, 0)` and returns.  The
f64 ratio arithmetic is idealised as exact rational arithmetic, expressed
in ℕ through ceiling division. -/

/-- Boolean test that a list of naturals is non-decreasing. -/
def chainLE : List ℕ → Bool
  | [] => true
  | [_] => true
  | a :: b :: t => decide (a ≤ b) && chainLE (b :: t)

/-- `ProgressTracker::emit` mapping (src/match_engine.rs lines 369-381):
`ceil(clamp(completed / total_work, 0, 1) * total_queries)`, with
`ratio = 1` when `total_work = 0`, expressed in ℕ by ceiling division. -/
def mappedCeil (totalQueries totalWork completed : ℕ) : ℕ :=
  if totalWork = 0 then totalQueries
  else (min completed totalWork * totalQueries + totalWork - 1) / totalWork

/-- The `(completed, total)` pair one `emit` call delivers to the callback:
`(mapped.min(total_queries), total_queries)`. -/
def emitValue (totalQueries totalWork completed : ℕ) : ℕ × ℕ :=
  (min (mappedCeil totalQueries totalWork completed) totalQueries, totalQueries)

/-- Cumulative completed work after each drained tile, given the per-tile
`(query_count, file_count)` pairs in drain order. -/
def cumWork : ℕ → List (ℕ × ℕ) → List ℕ
  | _, [] => []
  | acc, w :: ws => (acc + w.1 * w.2) :: cumWork (acc + w.1 * w.2) ws

/-- All progress callbacks of one nonempty run in delivery order: the
initial zero callback (src/match_engine.rs lines 433-437), one per drained
tile, and the `finish` callback at `completed_work = total_work`. -/
def progressEmissions (q T : ℕ) (works : List (ℕ × ℕ)) : List (ℕ × ℕ) :=
  (0, q) :: (((cumWork 0 works).map fun c => emitValue q T c) ++ [emitValue q T T])

/-- Progress behaviour of `GpuMatchEngine::match_and_store`
(src/match_engine.rs lines 402-437): an empty file set is an error; zero
identifiers short-circuit to a single `(0, 0)` callback; otherwise the
tracker runs with `total_work = total_queries * total_files.max(1)`. -/
def gpuRunProgress (q f : ℕ) (works : List (ℕ × ℕ)) : Except String (List (ℕ × ℕ)) :=
  if f = 0 then
    Except.error "No files found in database. Please scan a directory first."
  else if q = 0 then Except.ok [(0, 0)]
  else Except.ok (progressEmissions q (q * max f 1) works)

theorem cumWork_chain (ws : List (ℕ × ℕ)) : ∀ acc : ℕ,
    chainLE (acc :: cumWork acc ws) = true := by
  induction ws with
  | nil => intro acc; rfl
  | cons w ws ih =>
    intro acc
    simp only [cumWork, chainLE, Bool.and_eq_true, decide_eq_true_eq]
    exact ⟨Nat.le_add_right _ _, ih _⟩

theorem emit_fst_mono (q T : ℕ) (a b : ℕ) (hab : a ≤ b) :
    (emitValue q T a).1 ≤ (emitValue q T b).1 := by
  unfold emitValue mappedCeil
  split
  · exact le_refl _
  · refine min_le_min (Nat.div_le_div_right ?_) (le_refl q)
    have h1 : min a T ≤ min b T := by omega
    have h2 := Nat.mul_le_mul_right q h1
    omega

theorem emit_fst_le (q T c : ℕ) : (emitValue q T c).1 ≤ q := min_le_right _ _

theorem emitValue_total (q T : ℕ) (hT : 0 < T) : emitValue q T T = (q, q) := by
  unfold emitValue mappedCeil
  rw [if_neg (by omega), min_self]
  have h2 : (T * q + T - 1) / T = q := by
    have h3 : T * q + T - 1 = T * q + (T - 1) := by omega
    rw [h3, Nat.mul_add_div hT, Nat.div_eq_of_lt (by omega)]
    omega
  rw [h2, min_self]

theorem emitValue_zero (q T : ℕ) (hT : 0 < T) : emitValue q T 0 = (0, q) := by
  unfold emitValue mappedCeil
  rw [if_neg (by omega)]
  have h1 : min 0 T = 0 := by omega
  rw [h1]
  have h2 : (0 * q + T - 1) / T = 0 := Nat.div_eq_of_lt (by omega)
  rw [h2]
  have h3 : min 0 q = 0 := by omega
  rw [h3]

theorem progress_chain_aux (q T : ℕ) (hT : 0 < T) (ws : List (ℕ × ℕ)) :
    ∀ acc : ℕ,
      chainLE (((acc :: cumWork acc ws).map fun c => (emitValue q T c).1)
        ++ [(emitValue q T T).1]) = true := by
  induction ws with
  | nil =>
    intro acc
    simp only [cumWork, List.map_cons, List.map_nil, List.cons_append,
      List.nil_append, chainLE, Bool.and_eq_true, decide_eq_true_eq]
    constructor
    · rw [emitValue_total q T hT]
      exact emit_fst_le q T acc
    · trivial
  | cons w ws ih =>
    intro acc
    simp only [cumWork, List.map_cons, List.cons_append, chainLE,
      Bool.and_eq_true, decide_eq_true_eq]
    constructor
    · exact emit_fst_mono q T _ _ (Nat.le_add_right _ _)
    · have h := ih (acc + w.1 * w.2)
      simpa only [List.map_cons, List.cons_append] using h

/-- C6 (amended): the progress callbacks of a GPU run are monotonically
non-decreasing, each value is the completed-cell count weighted against
total cells and re-projected (by ceiling) onto identifier count with the
identifier count as denominator, and the final callback at drain
completion reports 100% (`completed = total`) — but the 100% value can be
delivered more than once (the `finish` call repeats the final tile's
value); a zero-identifier run (with a nonempty file set) short-circuits to
the single trivial callback `(0, 0)`, while a zero-file run returns an
error rather than a trivial completion. -/
theorem C6_progress_amended (q f : ℕ) (works : List (ℕ × ℕ)) :
    (f = 0 → (gpuRunProgress q f works).isOk = false) ∧
    (f ≠ 0 → q = 0 → gpuRunProgress q f works = Except.ok [(0, 0)]) ∧
    (f ≠ 0 → q ≠ 0 →
      gpuRunProgress q f works
          = Except.ok (progressEmissions q (q * max f 1) works) ∧
      chainLE ((progressEmissions q (q * max f 1) works).map Prod.fst) = true ∧
      (progressEmissions q (q * max f 1) works).getLast? = some (q, q) ∧
      ∀ p ∈ progressEmissions q (q * max f 1) works, p.1 ≤ q ∧ p.2 = q) := by
  refine ⟨fun hf => ?_, fun hf hq => ?_, fun hf hq => ?_⟩
  · unfold gpuRunProgress
    rw [if_pos hf]
    rfl
  · unfold gpuRunProgress
    rw [if_neg hf, if_pos hq]
  · have hT : 0 < q * max f 1 := by positivity
    refine ⟨by unfold gpuRunProgress; rw [if_neg hf, if_neg hq], ?_, ?_, ?_⟩
    · have h := progress_chain_aux q (q * max f 1) hT works 0
      have hz : (emitValue q (q * max f 1) 0).1 = 0 := by
        rw [emitValue_zero q _ hT]
      unfold progressEmissions
      simp only [List.map_cons, List.map_append, List.map_nil, List.map_map]
      simp only [List.map_cons, List.cons_append] at h
      rw [hz] at h
      exact h
    · unfold progressEmissions
      rw [show ((0, q) :: (((cumWork 0 works).map fun c =>
            emitValue q (q * max f 1) c) ++ [emitValue q (q * max f 1) (q * max f 1)]))
          = ((0, q) :: ((cumWork 0 works).map fun c => emitValue q (q * max f 1) c))
            ++ [emitValue q (q * max f 1) (q * max f 1)] by simp]
      rw [List.getLast?_concat, emitValue_total q _ hT]
    · intro p hp
      unfold progressEmissions at hp
      rcases List.mem_cons.mp hp with h0 | hrest
      · subst h0
        exact ⟨Nat.zero_le q, rfl⟩
      · rcases List.mem_append.mp hrest with hmid | hlast
        · obtain ⟨c, _, hc⟩ := List.mem_map.mp hmid
          subst hc
          exact ⟨emit_fst_le q _ c, rfl⟩
        · have h1 : p = emitValue q (q * max f 1) (q * max f 1) := by
            simpa using hlast
          subst h1
          exact ⟨emit_fst_le q _ _, rfl⟩

/-- Witness for C6 (amended) at a run with two identifiers, three files
and two drained tiles. -/
theorem C6_progress_amended_witness :
    gpuRunProgress 2 3 [(2, 2), (2, 1)]
      = Except.ok (progressEmissions 2 (2 * max 3 1) [(2, 2), (2, 1)]) :=
  ((C6_progress_amended 2 3 [(2, 2), (2, 1)]).2.2 (by decide) (by decide)).1

/-- C6 counterexample: a real run over one identifier and two files with a
2048-byte storage ceiling (which forces one-file tiles) delivers the 100%
value `(1, 1)` three times — once per drained tile and once at finish —
not exactly once; and a run with zero files is an error, not a trivial
completion. -/
theorem C6_progress_counterexample :
    gpuRunProgress 1 2 ((tileList 64 (fun k => file_chunk_size_for 256 2048 k) [1]
        [10, 20]).map fun t => (t.hh_slice.length, t.file_slice.length))
      = Except.ok [(0, 1), (1, 1), (1, 1), (1, 1)] ∧
    List.countP (fun p => p.1 == p.2) [(0, 1), (1, 1), (1, 1), (1, 1)] = 3 ∧
    (gpuRunProgress 1 0 []).isOk = false :=
  ⟨rfl, by decide, rfl⟩

/-! ## File-vector cache validation (C4)

src/match_engine.rs lines 208-231 and src/database.rs lines 302-339.  The
in-memory `HashMap<i64, Vec<f32>>` and the `file_vectors` table (keyed by
`file_id`, a primary key, so at most one row per id) are modelled as
association lists queried by first match.  The vector payload type and the
encoder are parameters (`Vectorizer::encode` feeds this code in the
engine); `fingerprint_entry`, the std `DefaultHasher` over `(id, name)`
whose algorithm lives outside this repository, is an abstract function
parameter. -/

theorem find?_append_none {p : γ → Bool} (l m : List γ) (h : l.find? p = none) :
    (l ++ m).find? p = m.find? p := by
  induction l with
  | nil => rfl
  | cons a t ih =>
    cases hp : p a with
    | true =>
      rw [List.find?_cons_of_pos _ hp] at h
      exact absurd h (by simp)
    | false =>
      rw [List.find?_cons_of_neg _ (by simp [hp])] at h
      rw [List.cons_append, List.find?_cons_of_neg _ (by simp [hp])]
      exact ih h

theorem find?_append_some {p : γ → Bool} (l m : List γ) (a : γ)
    (h : l.find? p = some a) : (l ++ m).find? p = some a := by
  induction l with
  | nil => exact absurd h (by simp)
  | cons b t ih =>
    cases hp : p b with
    | true =>
      rw [List.find?_cons_of_pos _ hp] at h
      rw [List.cons_append, List.find?_cons_of_pos _ hp]
      exact h
    | false =>
      rw [List.find?_cons_of_neg _ (by simp [hp])] at h
      rw [List.cons_append, List.find?_cons_of_neg _ (by simp [hp])]
      exact ih h

/-- Cached vector lookup `Database::get_file_vector` (src/database.rs
lines 302-325): the row for `file_id`, if any, is returned only when its
stored fingerprint equals the requested one.  (The blob-length check never
fires for rows written by `upsert_file_vector`, which stores whole float
slices.) -/
def get_file_vector (store : List (ℤ × ℕ × V)) (fid : ℤ) (fp : ℕ) : Option V :=
  match store.find? (fun e => e.1 == fid) with
  | some e => if e.2.1 = fp then some e.2.2 else none
  | none => none

/-- `Database::upsert_file_vector` (src/database.rs lines 327-339): insert
the row keyed by `file_id`, replacing an existing row for that id. -/
def upsert_file_vector (store : List (ℤ × ℕ × V)) (fid : ℤ) (fp : ℕ) (v : V) :
    List (ℤ × ℕ × V) :=
  if store.any (fun e => e.1 == fid) then
    store.map (fun e => if e.1 == fid then (fid, fp, v) else e)
  else store ++ [(fid, fp, v)]

/-- One iteration of the `prepare_cache` loop (src/match_engine.rs lines
212-228) for one `(id, name)` file: skip when the in-memory cache already
holds the id; else reuse the fingerprint-checked persistent entry; else
encode the name, persist the new `(fingerprint, vector)` pair and cache
it. -/
def prepare_cache_step (enc : String → V) (fp : ℤ → String → ℕ)
    (st : List (ℤ × V) × List (ℤ × ℕ × V)) (file : ℤ × String) :
    List (ℤ × V) × List (ℤ × ℕ × V) :=
  if st.1.any (fun e => e.1 == file.1) then st
  else match get_file_vector st.2 file.1 (fp file.1 file.2) with
    | some v => (st.1 ++ [(file.1, v)], st.2)
    | none =>
      (st.1 ++ [(file.1, enc file.2)],
        upsert_file_vector st.2 file.1 (fp file.1 file.2) (enc file.2))

/-- `GpuMatchEngine::prepare_cache` (src/match_engine.rs lines 208-231):
retain in-memory entries only for live file ids, then process every file
in order. -/
def prepare_cache (enc : String → V) (fp : ℤ → String → ℕ)
    (files : List (ℤ × String)) (mem : List (ℤ × V))
    (store : List (ℤ × ℕ × V)) : List (ℤ × V) × List (ℤ × ℕ × V) :=
  files.foldl (prepare_cache_step enc fp)
    (mem.filter (fun e => (files.map Prod.fst).contains e.1), store)

theorem map_replace_find (s : List (ℤ × ℕ × V)) (k : ℤ) (fpv : ℕ) (v : V)
    (hany : s.any (fun e => e.1 == k) = true) :
    (s.map (fun e => if e.1 == k then (k, fpv, v) else e)).find?
      (fun e => e.1 == k) = some (k, fpv, v) := by
  induction s with
  | nil => simp at hany
  | cons e0 t ih =>
    cases hb : (e0.1 == k) with
    | true =>
      simp only [List.map_cons]
      rw [if_pos hb]
      have hdone : List.find? (fun e => e.1 == k)
          ((k, fpv, v) :: t.map (fun e => if (e.1 == k) = true then (k, fpv, v) else e))
            = some (k, fpv, v) :=
        List.find?_cons_of_pos _ (by simp)
      exact hdone
    | false =>
      have hany2 : t.any (fun e => e.1 == k) = true := by
        simp only [List.any_cons, hb, Bool.false_or] at hany
        exact hany
      simp only [List.map_cons]
      rw [if_neg (by simp [hb]), List.find?_cons_of_neg _ (by simp [hb]), ih hany2]

theorem map_replace_find_other (s : List (ℤ × ℕ × V)) (k : ℤ) (fpv : ℕ) (v : V)
    (fid : ℤ) (hk : k ≠ fid) :
    (s.map (fun e => if e.1 == k then (k, fpv, v) else e)).find?
      (fun e => e.1 == fid) = s.find? (fun e => e.1 == fid) := by
  induction s with
  | nil => rfl
  | cons e0 t ih =>
    cases hb : (e0.1 == k) with
    | true =>
      have he0 : e0.1 = k := by simpa using hb
      have hfid : (e0.1 == fid) = false := by simp [he0, hk]
      simp only [List.map_cons]
      rw [if_pos hb]
      have hl : List.find? (fun e => e.1 == fid)
          ((k, fpv, v) :: t.map (fun e => if (e.1 == k) = true then (k, fpv, v) else e))
            = List.find? (fun e => e.1 == fid)
              (t.map (fun e => if (e.1 == k) = true then (k, fpv, v) else e)) :=
        List.find?_cons_of_neg _ (by simp [hk])
      have hr : List.find? (fun e => e.1 == fid) (e0 :: t)
          = List.find? (fun e => e.1 == fid) t :=
        List.find?_cons_of_neg _ (by simp [hfid])
      rw [hl, hr, ih]
    | false =>
      simp only [List.map_cons]
      rw [if_neg (by simp [hb])]
      cases hf : (e0.1 == fid) with
      | true =>
        have hl : List.find? (fun e => e.1 == fid)
            (e0 :: t.map (fun e => if (e.1 == k) = true then (k, fpv, v) else e))
              = some e0 :=
          List.find?_cons_of_pos _ hf
        have hr : List.find? (fun e => e.1 == fid) (e0 :: t) = some e0 :=
          List.find?_cons_of_pos _ hf
        rw [hl, hr]
      | false =>
        have hl : List.find? (fun e => e.1 == fid)
            (e0 :: t.map (fun e => if (e.1 == k) = true then (k, fpv, v) else e))
              = List.find? (fun e => e.1 == fid)
                (t.map (fun e => if (e.1 == k) = true then (k, fpv, v) else e)) :=
          List.find?_cons_of_neg _ (by simp [hf])
        have hr : List.find? (fun e => e.1 == fid) (e0 :: t)
            = List.find? (fun e => e.1 == fid) t :=
          List.find?_cons_of_neg _ (by simp [hf])
        rw [hl, hr, ih]

theorem upsert_find_self (s : List (ℤ × ℕ × V)) (k : ℤ) (fpv : ℕ) (v : V) :
    (upsert_file_vector s k fpv v).find? (fun e => e.1 == k) = some (k, fpv, v) := by
  unfold upsert_file_vector
  split
  · exact map_replace_find s k fpv v (by assumption)
  · rename_i hany
    have hnone : s.find? (fun e => e.1 == k) = none := by
      rw [List.find?_eq_none]
      intro e he hpe
      exact hany (List.any_eq_true.mpr ⟨e, he, hpe⟩)
    rw [find?_append_none _ _ hnone]
    simp

theorem upsert_find_other (s : List (ℤ × ℕ × V)) (k : ℤ) (fpv : ℕ) (v : V)
    (fid : ℤ) (hk : k ≠ fid) :
    (upsert_file_vector s k fpv v).find? (fun e => e.1 == fid)
      = s.find? (fun e => e.1 == fid) := by
  unfold upsert_file_vector
  split
  · exact map_replace_find_other s k fpv v fid hk
  · cases hf : s.find? (fun e => e.1 == fid) with
    | some a => exact find?_append_some _ _ _ hf
    | none =>
      rw [find?_append_none _ _ hf]
      simp [hk]

theorem upsert_mem_other (s : List (ℤ × ℕ × V)) (k : ℤ) (fpv : ℕ) (v : V)
    (fid : ℤ) (hk : k ≠ fid) :
    ∀ e ∈ upsert_file_vector s k fpv v, e.1 = fid → e ∈ s := by
  intro e he hefid
  unfold upsert_file_vector at he
  split at he
  · obtain ⟨e0, he0, hmap⟩ := List.mem_map.mp he
    by_cases h : e0.1 = k
    · rw [if_pos (by simp [h])] at hmap
      subst hmap
      exact absurd hefid hk
    · rw [if_neg (by simp [h])] at hmap
      subst hmap
      exact he0
  · rcases List.mem_append.mp he with h | h
    · exact h
    · have : e = (k, fpv, v) := by simpa using h
      subst this
      exact absurd hefid hk

/-- Joint invariant before the target file is processed: the in-memory
cache has no entry for the target id, and every persisted row for the
target id carries a mismatching fingerprint. -/
def CachePre (fid : ℤ) (fpNew : ℕ) (st : List (ℤ × V) × List (ℤ × ℕ × V)) : Prop :=
  st.1.find? (fun e => e.1 == fid) = none ∧
  ∀ e ∈ st.2, e.1 = fid → e.2.1 ≠ fpNew

/-- Joint invariant after the target file has been processed: both the
in-memory cache and the persistent store hold the freshly encoded vector
under the new fingerprint. -/
def CachePost (fid : ℤ) (fpNew : ℕ) (w : V) (st : List (ℤ × V) × List (ℤ × ℕ × V)) : Prop :=
  st.1.find? (fun e => e.1 == fid) = some (fid, w) ∧
  st.2.find? (fun e => e.1 == fid) = some (fid, fpNew, w)

theorem step_pre_invariant (enc : String → V) (fp : ℤ → String → ℕ) (fid : ℤ)
    (fpNew : ℕ) (file : ℤ × String) (hne : file.1 ≠ fid)
    (st : List (ℤ × V) × List (ℤ × ℕ × V)) (h : CachePre fid fpNew st) :
    CachePre fid fpNew (prepare_cache_step enc fp st file) := by
  obtain ⟨h1, h2⟩ := h
  unfold prepare_cache_step
  split
  · exact ⟨h1, h2⟩
  · have hmem : (st.1 ++ [(file.1, enc file.2)]).find? (fun e => e.1 == fid) = none := by
      rw [find?_append_none _ _ h1]
      simp [hne]
    cases hgv : get_file_vector st.2 file.1 (fp file.1 file.2) with
    | some v =>
      refine ⟨?_, h2⟩
      rw [find?_append_none _ _ h1]
      simp [hne]
    | none =>
      refine ⟨hmem, fun e he hefid => ?_⟩
      exact h2 e (upsert_mem_other _ _ _ _ _ hne e he hefid) hefid

theorem step_post_invariant (enc : String → V) (fp : ℤ → String → ℕ) (fid : ℤ)
    (fpNew : ℕ) (w : V) (file : ℤ × String) (hne : file.1 ≠ fid)
    (st : List (ℤ × V) × List (ℤ × ℕ × V)) (h : CachePost fid fpNew w st) :
    CachePost fid fpNew w (prepare_cache_step enc fp st file) := by
  obtain ⟨h1, h2⟩ := h
  unfold prepare_cache_step
  split
  · exact ⟨h1, h2⟩
  · cases hgv : get_file_vector st.2 file.1 (fp file.1 file.2) with
    | some v => exact ⟨find?_append_some _ _ _ h1, h2⟩
    | none =>
      refine ⟨find?_append_some _ _ _ h1, ?_⟩
      rw [upsert_find_other _ _ _ _ _ hne]
      exact h2

theorem step_at_target (enc : String → V) (fp : ℤ → String → ℕ) (fid : ℤ)
    (name : String) (st : List (ℤ × V) × List (ℤ × ℕ × V))
    (h : CachePre fid (fp fid name) st) :
    CachePost fid (fp fid name) (enc name) (prepare_cache_step enc fp st (fid, name)) := by
  obtain ⟨h1, h2⟩ := h
  have hany : st.1.any (fun e => e.1 == fid) = false := by
    cases hx : st.1.any (fun e => e.1 == fid) with
    | false => rfl
    | true =>
      obtain ⟨e, he, hpe⟩ := List.any_eq_true.mp hx
      exact absurd hpe (List.find?_eq_none.mp h1 e he)
  have hgv : get_file_vector st.2 fid (fp fid name) = none := by
    unfold get_file_vector
    cases hf : st.2.find? (fun e => e.1 == fid) with
    | none => rfl
    | some e =>
      have hefid : e.1 = fid := by simpa using List.find?_some hf
      have hmem := List.mem_of_find?_eq_some hf
      show (if e.2.1 = fp fid name then some e.2.2 else none) = none
      rw [if_neg (h2 e hmem hefid)]
  unfold prepare_cache_step
  rw [hany]
  simp only [Bool.false_eq_true, if_false]
  rw [hgv]
  refine ⟨?_, ?_⟩
  · show (st.1 ++ [(fid, enc name)]).find? (fun e => e.1 == fid)
      = some (fid, enc name)
    rw [find?_append_none _ _ h1]
    simp
  · show (upsert_file_vector st.2 fid (fp fid name) (enc name)).find?
        (fun e => e.1 == fid) = some (fid, fp fid name, enc name)
    exact upsert_find_self _ _ _ _

theorem foldl_pre_invariant (enc : String → V) (fp : ℤ → String → ℕ) (fid : ℤ)
    (fpNew : ℕ) : ∀ (pre : List (ℤ × String)) (st : List (ℤ × V) × List (ℤ × ℕ × V)),
    (∀ x ∈ pre, x.1 ≠ fid) → CachePre fid fpNew st →
    CachePre fid fpNew (pre.foldl (prepare_cache_step enc fp) st) := by
  intro pre
  induction pre with
  | nil => intro st _ h; exact h
  | cons x t ih =>
    intro st hx h
    rw [List.foldl_cons]
    exact ih _ (fun y hy => hx y (List.mem_cons_of_mem x hy))
      (step_pre_invariant enc fp fid fpNew x (hx x (List.mem_cons_self x t)) st h)

theorem foldl_post_invariant (enc : String → V) (fp : ℤ → String → ℕ) (fid : ℤ)
    (fpNew : ℕ) (w : V) : ∀ (post : List (ℤ × String))
    (st : List (ℤ × V) × List (ℤ × ℕ × V)),
    (∀ x ∈ post, x.1 ≠ fid) → CachePost fid fpNew w st →
    CachePost fid fpNew w (post.foldl (prepare_cache_step enc fp) st) := by
  intro post
  induction post with
  | nil => intro st _ h; exact h
  | cons x t ih =>
    intro st hx h
    rw [List.foldl_cons]
    exact ih _ (fun y hy => hx y (List.mem_cons_of_mem x hy))
      (step_post_invariant enc fp fid fpNew w x (hx x (List.mem_cons_self x t)) st h)

/-- C4: on a run whose engine was freshly constructed (the GUI creates a
new engine per matching run, src/gui.rs line 455, so the in-memory cache
starts empty), a persisted vector whose stored fingerprint differs from
the fingerprint of the file's current `(id, name)` — as happens when the
file was renamed since the vector was cached — is never reused: the
vector is re-encoded from the current name, and the new
`(fingerprint, vector)` pair is both cached in memory and persisted. -/
theorem C4_stale_fingerprint_recomputed (enc : String → V) (fp : ℤ → String → ℕ)
    (files : List (ℤ × String)) (store : List (ℤ × ℕ × V)) (fid : ℤ) (name : String)
    (hnodup : (files.map Prod.fst).Nodup) (hin : (fid, name) ∈ files)
    (hstale : ∀ e ∈ store, e.1 = fid → e.2.1 ≠ fp fid name) :
    (prepare_cache enc fp files [] store).1.find? (fun e => e.1 == fid)
        = some (fid, enc name) ∧
    (prepare_cache enc fp files [] store).2.find? (fun e => e.1 == fid)
        = some (fid, fp fid name, enc name) := by
  obtain ⟨pre, post, hsplit⟩ := List.mem_iff_append.mp hin
  subst hsplit
  have hmap : ((pre ++ (fid, name) :: post).map Prod.fst)
      = pre.map Prod.fst ++ fid :: post.map Prod.fst := by
    rw [List.map_append, List.map_cons]
  rw [hmap, List.nodup_append] at hnodup
  obtain ⟨_, hnodup2, hdisj⟩ := hnodup
  have hpre : ∀ x ∈ pre, x.1 ≠ fid := by
    intro x hx hxf
    exact hdisj (List.mem_map_of_mem Prod.fst hx)
      (by rw [hxf]; exact List.mem_cons_self _ _)
  have hpost : ∀ x ∈ post, x.1 ≠ fid := by
    intro x hx hxf
    have := List.nodup_cons.mp hnodup2
    exact this.1 (hxf ▸ List.mem_map_of_mem Prod.fst hx)
  unfold prepare_cache
  rw [List.foldl_append, List.foldl_cons]
  have hinit : CachePre fid (fp fid name)
      (([] : List (ℤ × V)).filter
        (fun e => (((pre ++ (fid, name) :: post).map Prod.fst)).contains e.1),
       store) :=
    ⟨rfl, hstale⟩
  have h1 := foldl_pre_invariant enc fp fid (fp fid name) pre _ hpre hinit
  have h2 := step_at_target enc fp fid name _ h1
  exact foldl_post_invariant enc fp fid (fp fid name) (enc name) post _ hpost h2

/-- Witness for C4: file 7 renamed to "new" while the store still holds a
vector fingerprinted under the old name. -/
theorem C4_stale_fingerprint_recomputed_witness :
    (prepare_cache (fun _ => (0 : ℕ)) (fun _ n => n.length) [(7, "new")] []
        [(7, 0, 5)]).2.find? (fun e => e.1 == 7) = some (7, 3, 0) :=
  (C4_stale_fingerprint_recomputed (fun _ => (0 : ℕ)) (fun _ n => n.length)
    [(7, "new")] [(7, 0, 5)] 7 "new" (by decide) (by decide)
    (by intro e he h1; simp at he; rw [he]; decide)).2

/-! ## Transactional match store of the GPU engine (C5)

src/match_engine.rs lines 513-530 and src/database.rs lines 41-66.  The
`matches` table is modelled as a row list; `insert_match` upserts on the
unique `(hh_id, file_id)` key. -/

/-- One stored match row as the GPU engine inserts it. -/
structure MatchRow where
  hh_id : String
  file_id : ℤ
  similarity : ℚ
deriving DecidableEq

/-- `MatchImportSession::clear_for_ids` (src/database.rs lines 41-56):
DELETE FROM matches WHERE hh_id IN (ids); an empty id list short-circuits
to a no-op. -/
def clear_for_ids (tbl : List MatchRow) (ids : List String) : List MatchRow :=
  if ids = [] then tbl else tbl.filter (fun r => !(ids.contains r.hh_id))

/-- `MatchImportSession::insert_match` (src/database.rs lines 58-66):
upsert on the unique `(hh_id, file_id)` key — update the existing row's
score in place, or append a new row. -/
def insert_match (tbl : List MatchRow) (hh : String) (fid : ℤ) (s : ℚ) :
    List MatchRow :=
  if tbl.any (fun r => r.hh_id == hh && r.file_id == fid) then
    tbl.map (fun r => if r.hh_id == hh && r.file_id == fid then ⟨hh, fid, s⟩ else r)
  else tbl ++ [⟨hh, fid, s⟩]

/-- The GPU engine's store step (src/match_engine.rs lines 513-530): in one
transaction, clear only the processed identifiers' prior matches, then
insert all collected matches. -/
def gpu_store_step (tbl : List MatchRow) (ids : List String) (ms : List MatchRow) :
    List MatchRow :=
  ms.foldl (fun t m => insert_match t m.hh_id m.file_id m.similarity)
    (clear_for_ids tbl ids)

/-- `GpuMatchEngine::collect_matches` (src/match_engine.rs lines 184-206):
filter one tile's row-major score matrix against the threshold.  The
out-of-bounds default of `getD` is never taken for well-sized score
vectors (C10). -/
def collect_matches (hh_ids : List String) (files : List (ℤ × String))
    (scores : List ℚ) (min_similarity : ℚ) : List MatchRow :=
  (hh_ids.enum).flatMap fun q =>
    (files.enum).flatMap fun f =>
      if min_similarity ≤ scores.getD (q.1 * files.length + f.1) 0 then
        [⟨q.2, f.2.1, scores.getD (q.1 * files.length + f.1) 0⟩]
      else []

theorem collect_matches_ids (hh_ids : List String) (files : List (ℤ × String))
    (scores : List ℚ) (min_similarity : ℚ) :
    ∀ m ∈ collect_matches hh_ids files scores min_similarity, m.hh_id ∈ hh_ids := by
  intro m hm
  unfold collect_matches at hm
  obtain ⟨q, hq, hm2⟩ := List.mem_flatMap.mp hm
  obtain ⟨f, _, hm3⟩ := List.mem_flatMap.mp hm2
  have hq2 : q.2 ∈ hh_ids := by
    have h := List.mem_map_of_mem Prod.snd hq
    rwa [List.enum_map_snd] at h
  split at hm3
  · have : m = ⟨q.2, f.2.1, scores.getD (q.1 * files.length + f.1) 0⟩ := by
      simpa using hm3
    rw [this]
    exact hq2
  · exact absurd hm3 (by simp)

theorem clear_for_ids_frame (tbl : List MatchRow) (ids : List String) (x : String)
    (hx : x ∉ ids) :
    (clear_for_ids tbl ids).filter (fun r => r.hh_id == x)
      = tbl.filter (fun r => r.hh_id == x) := by
  unfold clear_for_ids
  split
  · rfl
  · induction tbl with
    | nil => rfl
    | cons r t ih =>
      by_cases hr : r.hh_id = x
      · have hc : ids.contains r.hh_id = false := by
          rw [hr]
          simpa using hx
        have h1 : List.filter (fun r => !ids.contains r.hh_id) (r :: t)
            = r :: List.filter (fun r => !ids.contains r.hh_id) t := by
          rw [List.filter_cons,
            if_pos (show (!ids.contains r.hh_id) = true by rw [hc]; rfl)]
        rw [h1, List.filter_cons, List.filter_cons,
          if_pos (show (r.hh_id == x) = true by simp [hr]),
          if_pos (show (r.hh_id == x) = true by simp [hr]), ih]
      · cases hc : ids.contains r.hh_id with
        | true =>
          have h1 : List.filter (fun r => !ids.contains r.hh_id) (r :: t)
              = List.filter (fun r => !ids.contains r.hh_id) t := by
            rw [List.filter_cons,
              if_neg (show ¬ (!ids.contains r.hh_id) = true by rw [hc]; decide)]
          rw [h1, ih, List.filter_cons,
            if_neg (show ¬ (r.hh_id == x) = true by simp [hr])]
        | false =>
          have h1 : List.filter (fun r => !ids.contains r.hh_id) (r :: t)
              = r :: List.filter (fun r => !ids.contains r.hh_id) t := by
            rw [List.filter_cons, if_pos (show (!ids.contains r.hh_id) = true by rw [hc]; rfl)]
          rw [h1, List.filter_cons,
            if_neg (show ¬ (r.hh_id == x) = true by simp [hr]),
            List.filter_cons, if_neg (show ¬ (r.hh_id == x) = true by simp [hr])]
          exact ih

theorem map_upsert_filter_other (tbl : List MatchRow) (hh : String) (fid : ℤ)
    (s : ℚ) (x : String) (hne : hh ≠ x) :
    (tbl.map (fun r => if r.hh_id == hh && r.file_id == fid then
        (⟨hh, fid, s⟩ : MatchRow) else r)).filter (fun r => r.hh_id == x)
      = tbl.filter (fun r => r.hh_id == x) := by
  induction tbl with
  | nil => rfl
  | cons r t ih =>
    cases hb : (r.hh_id == hh && r.file_id == fid) with
    | true =>
      have hrh : r.hh_id = hh := by
        have := (Bool.and_eq_true _ _).mp hb
        simpa using this.1
      have hpold : (r.hh_id == x) = false := by simp [hrh, hne]
      have hpnew : ((⟨hh, fid, s⟩ : MatchRow).hh_id == x) = false := by simp [hne]
      simp only [List.map_cons]
      rw [if_pos hb]
      simp only [List.filter_cons, hpold, hpnew, Bool.false_eq_true, if_false]
      exact ih
    | false =>
      simp only [List.map_cons]
      rw [if_neg (by simp [hb])]
      simp only [List.filter_cons]
      cases hp : (r.hh_id == x) with
      | true => rw [ih]
      | false => exact ih

theorem insert_match_frame (tbl : List MatchRow) (hh : String) (fid : ℤ) (s : ℚ)
    (x : String) (hne : hh ≠ x) :
    (insert_match tbl hh fid s).filter (fun r => r.hh_id == x)
      = tbl.filter (fun r => r.hh_id == x) := by
  unfold insert_match
  split
  · exact map_upsert_filter_other tbl hh fid s x hne
  · rw [List.filter_append]
    simp [hne]

theorem foldl_insert_frame (x : String) (ids : List String) (hx : x ∉ ids) :
    ∀ (ms : List MatchRow) (t : List MatchRow), (∀ m ∈ ms, m.hh_id ∈ ids) →
      (ms.foldl (fun t m => insert_match t m.hh_id m.file_id m.similarity) t).filter
          (fun r => r.hh_id == x)
        = t.filter (fun r => r.hh_id == x) := by
  intro ms
  induction ms with
  | nil => intro t _; rfl
  | cons m ms ih =>
    intro t hms
    rw [List.foldl_cons]
    rw [ih _ (fun y hy => hms y (List.mem_cons_of_mem m hy))]
    exact insert_match_frame t m.hh_id m.file_id m.similarity x
      (fun h => hx (h ▸ hms m (List.mem_cons_self m ms)))

/-- C5: the GPU store step touches only the processed identifiers: for any
identifier `x` outside the processed list, the rows stored for `x` are
exactly what they were before the run, given that every inserted match
belongs to a processed identifier — which `collect_matches` guarantees,
since every match it produces carries an identifier from the processed
list. -/
theorem C5_store_frame (tbl : List MatchRow) (ids : List String)
    (ms : List MatchRow) (x : String) (hx : x ∉ ids)
    (hms : ∀ m ∈ ms, m.hh_id ∈ ids) :
    (gpu_store_step tbl ids ms).filter (fun r => r.hh_id == x)
        = tbl.filter (fun r => r.hh_id == x) ∧
    ∀ (hh_ids : List String) (files : List (ℤ × String)) (scores : List ℚ)
      (θ : ℚ), ∀ m ∈ collect_matches hh_ids files scores θ, m.hh_id ∈ hh_ids := by
  constructor
  · unfold gpu_store_step
    rw [foldl_insert_frame x ids hx ms _ hms]
    exact clear_for_ids_frame tbl ids x hx
  · exact collect_matches_ids

/-- Witness for C5: a run over HH1 and HH2 leaves the stored match for HH3
untouched. -/
theorem C5_store_frame_witness :
    (gpu_store_step [⟨"HH3", 9, 1⟩] ["HH1", "HH2"]
        [⟨"HH1", 1, 1⟩]).filter (fun r => r.hh_id == "HH3")
      = [(⟨"HH3", 9, 1⟩ : MatchRow)].filter (fun r => r.hh_id == "HH3") :=
  (C5_store_frame [⟨"HH3", 9, 1⟩] ["HH1", "HH2"] [⟨"HH1", 1, 1⟩] "HH3"
    (by decide) (by decide)).1

/-! ## CPU matcher scoring (C9)

src/matcher.rs lines 168-234.  The raw subsequence scorer
(`SkimMatcherV2::fuzzy_match`, an external crate) is an abstract function
parameter `fuzzy`; i64 scores are ℤ, f64 similarities are ℚ.  Trimming and
lowercasing of the identifier are modelled at ASCII granularity. -/

/-- ASCII lowercasing of one character. -/
def charLower (c : Char) : Char :=
  if 65 ≤ c.toNat ∧ c.toNat ≤ 90 then Char.ofNat (c.toNat + 32) else c

/-- Rust `str::to_lowercase` at ASCII granularity. -/
def lowerStr (s : String) : String := String.mk (s.data.map charLower)

/-- ASCII whitespace character test for `str::trim`. -/
def isWsChar (c : Char) : Bool :=
  decide (c.toNat = 9 ∨ c.toNat = 10 ∨ c.toNat = 11 ∨ c.toNat = 12 ∨
    c.toNat = 13 ∨ c.toNat = 32)

/-- Rust `str::trim` at ASCII granularity. -/
def trimStr (s : String) : String :=
  String.mk (((s.data.dropWhile isWsChar).reverse.dropWhile isWsChar).reverse)

/-- `Matcher::normalize_score` (src/matcher.rs lines 175-189): non-positive
raw or self score gives 0; otherwise the raw/self ratio is clamped to at
most 1 first, multiplied by the character-count length ratio, and the
product clamped to at most 1; zero-length candidate or query gives 0. -/
def normalize_score (score : ℤ) (candidate needle : String) (perfect : ℤ) : ℚ :=
  if score ≤ 0 ∨ perfect ≤ 0 then 0
  else if candidate.length = 0 ∨ needle.length = 0 then 0
  else
    min (min ((score : ℚ) / (perfect : ℚ)) 1
      * ((min candidate.length needle.length : ℚ)
        / (max candidate.length needle.length : ℚ))) 1

/-- `Matcher::perfect_score` (src/matcher.rs lines 168-173): the raw
self-match score of the needle, defaulting to ten times its byte length
(floored at one byte) when the scorer declines, floored at 1. -/
def perfect_score (fuzzy : String → String → Option ℤ) (needle : String) : ℤ :=
  max ((fuzzy needle needle).getD ((max needle.utf8ByteSize 1 : ℕ) * 10)) 1

/-- Raw-then-normalized score of one candidate form against the needle:
the larger of the two scoring directions, normalized
(src/matcher.rs lines 209-213). -/
def candScore (fuzzy : String → String → Option ℤ) (needle : String)
    (perfect : ℤ) (c : String) : ℚ :=
  normalize_score (max ((fuzzy c needle).getD 0) ((fuzzy needle c).getD 0))
    c needle perfect

/-- The candidate loop of `match_single_id` (src/matcher.rs lines
206-220): fold the best-so-far score over the candidate forms in order,
stopping early as soon as the best reaches the threshold. -/
def bestCandidate (fuzzy : String → String → Option ℤ) (needle : String)
    (perfect : ℤ) (min_similarity : ℚ) : List String → ℚ → ℚ
  | [], best => best
  | c :: cs, best =>
    if min_similarity ≤ max best (candScore fuzzy needle perfect c) then
      max best (candScore fuzzy needle perfect c)
    else bestCandidate fuzzy needle perfect min_similarity cs
      (max best (candScore fuzzy needle perfect c))

/-- Candidate forms of one file (`FileMatchContext`,
src/matcher.rs lines 17-40) plus the file identity. -/
structure FileCtx where
  id : ℤ
  file_name : String
  file_path : String
  candidates : List String

/-- One CPU match result (src/matcher.rs lines 8-15). -/
structure CpuMatchResult where
  hh_id : String
  file_id : ℤ
  file_name : String
  file_path : String
  similarity : ℚ
deriving DecidableEq

/-- `Matcher::match_single_id` (src/matcher.rs lines 191-234): empty
trimmed identifiers match nothing; otherwise each file is recorded with
the candidate-loop score whenever that score reaches the threshold. -/
def match_single_id (fuzzy : String → String → Option ℤ) (hh_id : String)
    (files : List FileCtx) (min_similarity : ℚ) : List CpuMatchResult :=
  if trimStr hh_id = "" then []
  else
    files.flatMap fun ctx =>
      if min_similarity ≤ bestCandidate fuzzy (lowerStr (trimStr hh_id))
          (perfect_score fuzzy (lowerStr (trimStr hh_id))) min_similarity
          ctx.candidates 0 then
        [⟨hh_id, ctx.id, ctx.file_name, ctx.file_path,
          bestCandidate fuzzy (lowerStr (trimStr hh_id))
            (perfect_score fuzzy (lowerStr (trimStr hh_id))) min_similarity
            ctx.candidates 0⟩]
      else []

/-- Modelled from the claim's words: each candidate form's normalized
similarity as `(raw_score / raw_self_score) * (min len / max len)` clamped
to [0, 1], with no intermediate clamp on the raw ratio. -/
def claimNormOriginal (s p : ℤ) (cl ql : ℕ) : ℚ :=
  max 0 (min (((s : ℚ) / (p : ℚ)) * ((min cl ql : ℚ) / (max cl ql : ℚ))) 1)

/-- Modelled from the amended claim: as `claimNormOriginal`, but the raw
ratio is clamped to at most 1 before the length penalty is applied, and
degenerate inputs give 0. -/
def claimNormAmended (s p : ℤ) (cl ql : ℕ) : ℚ :=
  if s ≤ 0 ∨ p ≤ 0 ∨ cl = 0 ∨ ql = 0 then 0
  else max 0 (min (min ((s : ℚ) / (p : ℚ)) 1 * ((min cl ql : ℚ) / (max cl ql : ℚ))) 1)

/-- The candidate forms actually scanned by the loop: everything up to and
including the first form whose (zero-floored) score reaches the
threshold, or all forms when none does. -/
def scannedForms (P : String → ℚ) (θ : ℚ) (cs : List String) : List String :=
  cs.takeWhile (fun c => !(decide (θ ≤ max 0 (P c))))
    ++ (cs.dropWhile (fun c => !(decide (θ ≤ max 0 (P c))))).take 1

/-- Maximum of a rational list, floored at 0 (the loop's starting best). -/
def listMax0 (l : List ℚ) : ℚ := l.foldr max 0

theorem listMax0_nonneg (l : List ℚ) : 0 ≤ listMax0 l := by
  induction l with
  | nil => exact le_refl 0
  | cons a t ih => exact le_trans ih (le_max_right a (listMax0 t))

theorem normalize_score_amended_eq (s p : ℤ) (c q : String) :
    normalize_score s c q p = claimNormAmended s p c.length q.length := by
  unfold normalize_score claimNormAmended
  by_cases h1 : s ≤ 0 ∨ p ≤ 0
  · rw [if_pos h1, if_pos (by tauto)]
  · by_cases h2 : c.length = 0 ∨ q.length = 0
    · rw [if_neg h1, if_pos h2, if_pos (by tauto)]
    · rw [if_neg h1, if_neg h2, if_neg (by tauto)]
      refine (max_eq_right ?_).symm
      push_neg at h1
      have hs : 0 < (s : ℚ) := by exact_mod_cast h1.1
      have hp : 0 < (p : ℚ) := by exact_mod_cast h1.2
      have hbase : 0 ≤ min ((s : ℚ) / (p : ℚ)) 1 :=
        le_min (le_of_lt (div_pos hs hp)) zero_le_one
      have hratio : (0 : ℚ) ≤ (min c.length q.length : ℚ)
          / (max c.length q.length : ℚ) := by positivity
      exact le_min (mul_nonneg hbase hratio) zero_le_one

theorem normalize_score_bounds (s p : ℤ) (c q : String) :
    0 ≤ normalize_score s c q p ∧ normalize_score s c q p ≤ 1 := by
  constructor
  · rw [normalize_score_amended_eq]
    unfold claimNormAmended
    split
    · exact le_refl 0
    · exact le_max_left 0 _
  · unfold normalize_score
    split
    · exact zero_le_one
    · split
      · exact zero_le_one
      · exact min_le_right _ 1

theorem bestCandidate_eq_scanned (fuzzy : String → String → Option ℤ)
    (needle : String) (perfect : ℤ) (θ : ℚ) (hθ : 0 < θ) :
    ∀ (cs : List String) (b : ℚ), 0 ≤ b → ¬ θ ≤ b →
      bestCandidate fuzzy needle perfect θ cs b
        = max b (listMax0 ((scannedForms (candScore fuzzy needle perfect) θ cs).map
            (candScore fuzzy needle perfect))) := by
  intro cs
  induction cs with
  | nil =>
    intro b hb0 _
    have h1 : scannedForms (candScore fuzzy needle perfect) θ [] = [] := rfl
    rw [h1]
    simp only [List.map_nil]
    show b = max b (listMax0 [])
    exact (max_eq_left hb0).symm
  | cons c cs ih =>
    intro b hb0 hbθ
    by_cases hbr : θ ≤ max b (candScore fuzzy needle perfect c)
    · have hLHS : bestCandidate fuzzy needle perfect θ (c :: cs) b
          = max b (candScore fuzzy needle perfect c) := by
        simp only [bestCandidate]
        rw [if_pos hbr]
      have hnθ : θ ≤ candScore fuzzy needle perfect c := by
        rcases le_max_iff.mp hbr with h | h
        · exact absurd h hbθ
        · exact h
      have hpred : (!(decide (θ ≤ max 0 (candScore fuzzy needle perfect c)))) = false := by
        have h := le_trans hnθ (le_max_right 0 (candScore fuzzy needle perfect c))
        simp [h]
      have hscan : scannedForms (candScore fuzzy needle perfect) θ (c :: cs) = [c] := by
        unfold scannedForms
        rw [List.takeWhile_cons, List.dropWhile_cons]
        rw [if_neg (by rw [hpred]; decide), if_neg (by rw [hpred]; decide)]
        rfl
      rw [hLHS, hscan]
      have hone : listMax0 ([c].map (candScore fuzzy needle perfect))
          = candScore fuzzy needle perfect c := by
        show max (candScore fuzzy needle perfect c) 0 = _
        exact max_eq_left (le_trans (le_of_lt hθ) hnθ)
      rw [hone]
    · have hLHS : bestCandidate fuzzy needle perfect θ (c :: cs) b
          = bestCandidate fuzzy needle perfect θ cs
              (max b (candScore fuzzy needle perfect c)) := by
        simp only [bestCandidate]
        rw [if_neg hbr]
      have hnb : ¬ θ ≤ candScore fuzzy needle perfect c :=
        fun h => hbr (le_trans h (le_max_right b _))
      have hpred : (!(decide (θ ≤ max 0 (candScore fuzzy needle perfect c)))) = true := by
        have h : ¬ θ ≤ max 0 (candScore fuzzy needle perfect c) := by
          intro h
          rcases le_max_iff.mp h with h2 | h2
          · exact absurd hθ (not_lt.mpr h2)
          · exact hnb h2
        simp [h]
      have hscan : scannedForms (candScore fuzzy needle perfect) θ (c :: cs)
          = c :: scannedForms (candScore fuzzy needle perfect) θ cs := by
        unfold scannedForms
        rw [List.takeWhile_cons, List.dropWhile_cons]
        rw [if_pos (by rw [hpred]), if_pos (by rw [hpred]), List.cons_append]
      rw [hLHS, ih (max b (candScore fuzzy needle perfect c))
        (le_trans hb0 (le_max_left b _)) hbr, hscan, List.map_cons]
      have hsplit : listMax0 (candScore fuzzy needle perfect c ::
            (scannedForms (candScore fuzzy needle perfect) θ cs).map
              (candScore fuzzy needle perfect))
          = max (candScore fuzzy needle perfect c)
              (listMax0 ((scannedForms (candScore fuzzy needle perfect) θ cs).map
                (candScore fuzzy needle perfect))) := rfl
      rw [hsplit, ← max_assoc]

theorem takeWhile_all {p : String → Bool} :
    ∀ cs : List String, (∀ c ∈ cs, p c = true) →
      cs.takeWhile p = cs ∧ cs.dropWhile p = [] := by
  intro cs
  induction cs with
  | nil => intro _; exact ⟨rfl, rfl⟩
  | cons c t ih =>
    intro h
    have hc : p c = true := h c (List.mem_cons_self c t)
    have ht := ih (fun y hy => h y (List.mem_cons_of_mem c hy))
    rw [List.takeWhile_cons, List.dropWhile_cons, if_pos hc, if_pos hc]
    exact ⟨by rw [ht.1], ht.2⟩

/-- C9 (amended): each candidate form's normalized similarity equals the
raw/self ratio clamped to at most 1, times the length ratio, clamped to
[0, 1] (the intermediate clamp distinguishes this from the unclamped
product); the candidate forms are scanned in order and scanning stops at
the first form whose score reaches the threshold, so for a positive
threshold the recorded similarity is the maximum normalized score over the
scanned prefix of the forms — which is the maximum over all of the file's
candidate forms whenever no form reaches the threshold early. -/
theorem C9_normalization_amended (fuzzy : String → String → Option ℤ)
    (needle : String) (perfect : ℤ) (θ : ℚ) :
    (∀ (s p : ℤ) (c q : String),
      normalize_score s c q p = claimNormAmended s p c.length q.length ∧
      0 ≤ normalize_score s c q p ∧ normalize_score s c q p ≤ 1) ∧
    (0 < θ → ∀ cs : List String,
      bestCandidate fuzzy needle perfect θ cs 0
        = listMax0 ((scannedForms (candScore fuzzy needle perfect) θ cs).map
            (candScore fuzzy needle perfect))) ∧
    (0 < θ → ∀ cs : List String,
      (∀ c ∈ cs, max 0 (candScore fuzzy needle perfect c) < θ) →
      bestCandidate fuzzy needle perfect θ cs 0
        = listMax0 (cs.map (candScore fuzzy needle perfect))) := by
  have hmax0 : ∀ (l : List ℚ), max 0 (listMax0 l) = listMax0 l :=
    fun l => max_eq_right (listMax0_nonneg l)
  have hmain : 0 < θ → ∀ cs : List String,
      bestCandidate fuzzy needle perfect θ cs 0
        = listMax0 ((scannedForms (candScore fuzzy needle perfect) θ cs).map
            (candScore fuzzy needle perfect)) := by
    intro hθ cs
    rw [bestCandidate_eq_scanned fuzzy needle perfect θ hθ cs 0 (le_refl 0)
      (not_le.mpr hθ), hmax0]
  refine ⟨fun s p c q => ⟨normalize_score_amended_eq s p c q,
    normalize_score_bounds s p c q⟩, hmain, fun hθ cs hall => ?_⟩
  rw [hmain hθ cs]
  have hpred : ∀ c ∈ cs, (!(decide (θ ≤ max 0 (candScore fuzzy needle perfect c)))) = true := by
    intro c hc
    have := hall c hc
    simp [not_le.mpr this]
  obtain ⟨h1, h2⟩ := takeWhile_all cs hpred
  unfold scannedForms
  rw [h1, h2]
  simp

/-- Witness for C9 (amended) at the concrete oracle and candidate list of
the counterexample. -/
theorem C9_normalization_amended_witness :
    bestCandidate (fun _ _ => some 1) "ab" 1 (2/5) ["a", "ab"] 0
      = listMax0 ((scannedForms (candScore (fun _ _ => some 1) "ab" 1) (2/5)
          ["a", "ab"]).map (candScore (fun _ _ => some 1) "ab" 1)) :=
  (C9_normalization_amended (fun _ _ => some 1) "ab" 1 (2/5)).2.1
    (by norm_num) ["a", "ab"]

/-- Concrete scorer oracle for the C9 counterexample: candidate "a"
outscores the needle's self-match. -/
def exFuzzy : String → String → Option ℤ := fun a b =>
  if a = "a" ∧ b = "ab" then some 2
  else if a = "ab" ∧ b = "ab" then some 1
  else none

/-- C9 counterexample: with needle "ab" (self score 1, so raw score 2 for
candidate "a" exceeds the self score) and threshold 2/5, the recorded
similarity is 1/2 — the code clamps the raw ratio before the length
penalty and stops scanning at the first candidate reaching the threshold —
whereas the claim's formula, the unclamped product maximised over all
candidate forms, gives 1. -/
theorem C9_counterexample :
    match_single_id exFuzzy "ab" [⟨7, "f", "p", ["a", "ab"]⟩] (2/5)
      = [⟨"ab", 7, "f", "p", 1/2⟩] ∧
    listMax0 ((["a", "ab"]).map fun c =>
      claimNormOriginal (max ((exFuzzy c "ab").getD 0) ((exFuzzy "ab" c).getD 0))
        (perfect_score exFuzzy "ab") c.length "ab".length) = 1 ∧
    ¬ ((1 : ℚ)/2 = 1) := by
  have h1 : exFuzzy "a" "ab" = some 2 := by
    unfold exFuzzy
    rw [if_pos (by decide)]
  have h2 : exFuzzy "ab" "a" = none := by
    unfold exFuzzy
    rw [if_neg (by decide), if_neg (by decide)]
  have h3 : exFuzzy "ab" "ab" = some 1 := by
    unfold exFuzzy
    rw [if_neg (by decide), if_pos (by decide)]
  have hperf : perfect_score exFuzzy "ab" = 1 := by
    unfold perfect_score
    rw [h3]
    simp
  have hlen1 : ("a" : String).length = 1 := rfl
  have hlen2 : ("ab" : String).length = 2 := rfl
  have hns1 : normalize_score 2 "a" "ab" 1 = 1/2 := by
    unfold normalize_score
    rw [if_neg (by norm_num), if_neg (by decide)]
    rw [hlen1, hlen2]
    norm_num [min_def]
  have hns2 : normalize_score 1 "ab" "ab" 1 = 1 := by
    unfold normalize_score
    rw [if_neg (by norm_num), if_neg (by decide)]
    rw [hlen2]
    norm_num [min_def]
  have hc1 : candScore exFuzzy "ab" 1 "a" = 1/2 := by
    unfold candScore
    rw [h1, h2]
    simp only [Option.getD_some, Option.getD_none]
    rw [show max (2 : ℤ) 0 = 2 from by norm_num [max_def]]
    exact hns1
  have hneedle : lowerStr (trimStr "ab") = "ab" := by decide
  have hbest : bestCandidate exFuzzy "ab" 1 (2/5) ["a", "ab"] 0 = 1/2 := by
    simp only [bestCandidate]
    rw [hc1, show max (0 : ℚ) (1/2) = 1/2 from by norm_num [max_def],
      if_pos (by norm_num)]
  refine ⟨?_, ?_, by norm_num⟩
  · unfold match_single_id
    rw [if_neg (by decide), hneedle, hperf]
    simp only [List.flatMap_cons, List.flatMap_nil, List.append_nil]
    rw [hbest, if_pos (by norm_num)]
  · simp only [List.map_cons, List.map_nil]
    rw [h1, h2, h3, hperf]
    simp only [Option.getD_some, Option.getD_none]
    rw [show max (2 : ℤ) 0 = 2 from by norm_num [max_def],
      show max (1 : ℤ) 1 = 1 from by norm_num [max_def], hlen1, hlen2]
    have hco1 : claimNormOriginal 2 1 1 2 = 1 := by
      unfold claimNormOriginal
      norm_num [min_def, max_def]
    have hco2 : claimNormOriginal 1 1 2 2 = 1 := by
      unfold claimNormOriginal
      norm_num [min_def, max_def]
    rw [hco1, hco2]
    show max (1 : ℚ) (max 1 0) = 1
    norm_num [max_def]

end HAF
